import Mathlib

set_option maxRecDepth 40000

/-!
Verification of the agent-skills-generator crawler.

The development shallowly embeds the crawl engine of the repository:
the Go CLI's rule engine (`cmd/crawl.go`: `loadRules`, `shouldVisit`) and
the TypeScript crawler (`Crawler.ts`: `visit`, `shouldIgnore`,
`extractLinksFromXml`, `getFilePath`, `sanitizeName`, the frontmatter
synthesis and the conditional-refetch logic).  Strings are represented by
their character lists so that every operation is a structurally recursive,
executable function.  Third-party collaborators that the repository only
calls (the gobwas glob matcher, the WHATWG URL parser, Node's path module,
js-yaml, axios, cheerio, turndown) are modelled by small Lean functions
faithful to the way the repository uses them; each such model says so in
its doc comment.  The filesystem and the network are made explicit: files
are an association list from paths to contents, the network is a function
from URL and optional conditional header to a response.
-/

namespace AgentSkills

/-! ## Character and character-list utilities -/

/-- ASCII lower-casing of one character, as JavaScript `toLowerCase` and Go
`strings.ToLower` act on ASCII input. -/
def lowerChar (c : Char) : Char :=
  if 'A' ≤ c ∧ c ≤ 'Z' then Char.ofNat (c.toNat + 32) else c

/-- Membership in the character class `[a-z0-9]`. -/
def isLowerAlnum (c : Char) : Bool :=
  ('a' ≤ c && c ≤ 'z') || ('0' ≤ c && c ≤ '9')

/-- Boolean prefix test on character lists. -/
def isPrefixCL : List Char → List Char → Bool
  | [], _ => true
  | _ :: _, [] => false
  | a :: as, b :: bs => a == b && isPrefixCL as bs

/-- Boolean substring test: does `needle` occur inside the list? -/
def containsCL (needle : List Char) : List Char → Bool
  | [] => isPrefixCL needle []
  | c :: rest => isPrefixCL needle (c :: rest) || containsCL needle rest

/-- Index of the first occurrence of `needle`, if any. -/
def findSub (needle : List Char) : List Char → Option Nat
  | [] => if isPrefixCL needle [] then some 0 else none
  | c :: rest =>
    if isPrefixCL needle (c :: rest) then some 0
    else (findSub needle rest).map (· + 1)

/-- The longest prefix not containing `stop`. -/
def takeUntilChar (stop : Char) : List Char → List Char
  | [] => []
  | c :: rest => if c == stop then [] else c :: takeUntilChar stop rest

/-- Split at every occurrence of `sep`, keeping empty parts, like
JavaScript `String.split`. -/
def splitOnChar (sep : Char) : List Char → List (List Char)
  | [] => [[]]
  | c :: rest =>
    let r := splitOnChar sep rest
    if c == sep then [] :: r
    else
      match r with
      | [] => [[c]]
      | h :: t => (c :: h) :: t

/-- Drop every occurrence of `c` at the end of the list. -/
def dropTrailing (c : Char) (l : List Char) : List Char :=
  (l.reverse.dropWhile (· == c)).reverse

/-- Drop every occurrence of `c` at both ends, as the JavaScript
replacement of the anchored runs at either end by the empty string. -/
def trimCharEnds (c : Char) (l : List Char) : List Char :=
  dropTrailing c (l.dropWhile (· == c))

/-- State-machine core of run collapsing: `inRun` records whether the
previous character was already part of a rejected run. -/
def collapseRunsAux (keep : Char → Bool) : Bool → List Char → List Char
  | _, [] => []
  | inRun, c :: cs =>
    if keep c then c :: collapseRunsAux keep false cs
    else if inRun then collapseRunsAux keep true cs
    else '-' :: collapseRunsAux keep true cs

/-- Replace every maximal run of characters failing `keep` by a single
hyphen: the effect of a global regex replacement of the negated
character-class `+`-run by a hyphen. -/
def collapseRuns (keep : Char → Bool) (l : List Char) : List Char :=
  collapseRunsAux keep false l

/-- Replace every occurrence of one character by another. -/
def replaceChar (from' to' : Char) (l : List Char) : List Char :=
  l.map (fun c => if c == from' then to' else c)

/-- Fuel-bounded global substring replacement, like a JavaScript global
regex replacement of a literal substring.  The fuel is instantiated with
the list length, which suffices for a non-empty needle. -/
def replaceSubFuel (needle repl : List Char) : Nat → List Char → List Char
  | 0, l => l
  | _ + 1, [] => []
  | fuel + 1, c :: rest =>
    if isPrefixCL needle (c :: rest) then
      repl ++ replaceSubFuel needle repl fuel ((c :: rest).drop needle.length)
    else c :: replaceSubFuel needle repl fuel rest

/-! ## String wrappers -/

/-- Does `s` start with `pre`?  JavaScript `startsWith`, Go `HasPrefix`. -/
def strStartsWith (s pre : String) : Bool :=
  isPrefixCL pre.toList s.toList

/-- Does `s` end with `suf`?  JavaScript `endsWith`, Go `HasSuffix`. -/
def strEndsWith (s suf : String) : Bool :=
  isPrefixCL suf.toList.reverse s.toList.reverse

/-- Does `s` contain `sub`?  JavaScript `includes`, Go `Contains`. -/
def strContains (s sub : String) : Bool :=
  containsCL sub.toList s.toList

/-- Remove `suf` from the end of `s` if present; the effect of a
JavaScript replacement of the end-anchored literal by the empty string,
or of Go `strings.TrimSuffix`. -/
def dropSuffixIf (s suf : String) : String :=
  if strEndsWith s suf then (s.toList.take (s.toList.length - suf.toList.length)).asString
  else s

/-- Remove one leading occurrence of character `c`, the effect of a
JavaScript replacement of the start-anchored character. -/
def dropLeadingCharOnce (c : Char) (s : String) : String :=
  match s.toList with
  | [] => s
  | h :: t => if h == c then t.asString else s

/-- Remove one trailing occurrence of character `c`, the effect of a
JavaScript replacement of the end-anchored character. -/
def dropTrailingCharOnce (c : Char) (s : String) : String :=
  match s.toList.reverse with
  | [] => s
  | h :: t => if h == c then t.reverse.asString else s

/-- ASCII whitespace test used by trimming. -/
def isWsChar (c : Char) : Bool :=
  c == ' ' || c == '\t' || c == '\n' || c == '\r'

/-- Trim whitespace at both ends: Go `strings.TrimSpace`, JavaScript
`trim`, on ASCII whitespace. -/
def trimSpace (s : String) : String :=
  (((s.toList.dropWhile isWsChar).reverse.dropWhile isWsChar).reverse).asString

/-- Modelled third-party collaborator: fragment stripping done through the
WHATWG `URL` object (`urlObj.hash = ''` after `new URL(url)`), reduced to
its observable effect on the URL string — everything from the first `#`
on is removed. -/
def stripHash (url : String) : String :=
  (takeUntilChar '#' url.toList).asString

/-- `u.endsWith('/') ? u.slice(0, -1) : u`: remove one trailing slash. -/
def stripTrailingSlash (s : String) : String :=
  if strEndsWith s "/" then s.toList.dropLast.asString else s

/-! ## The TypeScript crawler's data model (`Crawler.ts`) -/

/-- Embeds the `Rule` interface of `Crawler.ts`: a structured crawl rule.
The `action` field carries the literal union `'include' | 'ignore'` as a
string, exactly as the source compares it. -/
structure Rule where
  url : String
  subpaths : Bool
  action : String
  bundle : Bool
deriving DecidableEq

/-- Embeds the `Config` interface of `Crawler.ts`.  `file_rename` is
`none` when the optional field is absent. -/
structure Config where
  output : String
  flat : Bool
  file_rename : Option String
  rules : List Rule

/-- JavaScript `x || d` on an optional string field: the default `d` is
used when the field is absent or empty (empty strings are falsy). -/
def orDefaultStr (v : Option String) (d : String) : String :=
  match v with
  | some s => if s.toList.isEmpty then d else s
  | none => d

/-! ## Name slug (`Crawler.sanitizeName`) -/

/-- The truncation step of the slug: when longer than 64 characters,
cut at 64 and drop the hyphens the cut leaves trailing. -/
def slugTrunc (l : List Char) : List Char :=
  if 64 < l.length then dropTrailing '-' (l.take 64) else l

/-- The final step of the slug: the fallback `untitled` when empty
(JavaScript `s || 'untitled'`). -/
def slugFinish (l : List Char) : String :=
  if l.isEmpty then "untitled" else l.asString

/-- Embeds `Crawler.sanitizeName`: lower-case the title, replace every
maximal run matching the regex class `[^a-z0-9-]+` by one hyphen (note
that the class keeps hyphens), strip leading and trailing hyphen runs,
truncate to 64 characters dropping any hyphen run the cut leaves at the
end, and fall back to `untitled` when empty. -/
def sanitizeName (s : String) : String :=
  let l := s.toList.map lowerChar
  let l := collapseRuns (fun c => isLowerAlnum c || c == '-') l
  let l := trimCharEnds '-' l
  slugFinish (slugTrunc l)

/-- The slug as the specification words it: every maximal run of
characters outside `[a-z0-9]` — hyphens included — is collapsed to a
single hyphen; then the same trimming, truncation and fallback. -/
def specSlugName (s : String) : String :=
  let l := s.toList.map lowerChar
  let l := collapseRuns isLowerAlnum l
  let l := trimCharEnds '-' l
  slugFinish (slugTrunc l)

/-- The slug under the amended reading: runs of characters outside
`[a-z0-9-]` collapse to one hyphen, so hyphens already present survive
untouched; trimming, truncation and fallback as before. -/
def specSlugKeepHyphen (s : String) : String :=
  let l := s.toList.map lowerChar
  let l := collapseRuns (fun c => isLowerAlnum c || c == '-') l
  let l := trimCharEnds '-' l
  slugFinish (slugTrunc l)

/-- Embeds `Crawler.sanitizeDescription`: trim, fall back to the fixed
literal when empty, truncate to 1024 characters with an ellipsis. -/
def sanitizeDescription (s : String) : String :=
  let s := trimSpace s
  if s.toList.isEmpty then "No description available."
  else if 1024 < s.toList.length then (s.toList.take 1024).asString ++ "..."
  else s

/-! ## Link-discovery scope filter (`Crawler.visit`, subpath branch) -/

/-- Embeds the scope check of `Crawler.visit`: with one trailing slash
stripped from both the rule URL and the candidate, accept on equality or
when the candidate starts with the rule URL followed by a slash. -/
def scopeAccept (ruleUrl absoluteUrl : String) : Bool :=
  let r := stripTrailingSlash ruleUrl
  let t := stripTrailingSlash absoluteUrl
  t == r || strStartsWith t (r ++ "/")

/-- The scope predicate as the specification words it: the normalized
candidate equals the rule URL modulo a trailing slash, or extends it with
a path separator. -/
def specScopeAccept (ruleUrl absoluteUrl : String) : Prop :=
  stripTrailingSlash absoluteUrl = stripTrailingSlash ruleUrl ∨
    (stripTrailingSlash ruleUrl ++ "/").toList <+: (stripTrailingSlash absoluteUrl).toList

/-! ## Ignore rules (`Crawler.shouldIgnore`) -/

/-- Embeds `Crawler.shouldIgnore`: some rule with action `ignore` matches
the URL exactly or as a raw string prefix. -/
def shouldIgnore (rules : List Rule) (url : String) : Bool :=
  rules.any (fun rule =>
    rule.action == "ignore" && (url == rule.url || strStartsWith url rule.url))

/-! ## URL and path modelling -/

/-- The observable parts of a parsed URL used by the crawler. -/
structure UrlParts where
  hostname : String
  pathname : String
deriving DecidableEq

/-- Modelled third-party collaborator: the WHATWG `URL` parser, reduced
to the `hostname` and `pathname` fields for an absolute http(s) URL
without query, port or userinfo — the shapes the crawler feeds it.  The
host is everything between the `://` and the next slash; the pathname is
the rest, `/` when empty. -/
def parseUrl (s : String) : UrlParts :=
  let afterScheme :=
    match findSub "://".toList s.toList with
    | some i => s.toList.drop (i + 3)
    | none => s.toList
  let host := takeUntilChar '/' afterScheme
  let path := afterScheme.drop host.length
  ⟨host.asString, if path.isEmpty then "/" else path.asString⟩

/-- Collapse runs of slashes to a single slash; the separator
normalization Node's `path.join` performs. -/
def collapseSlashesAux : Bool → List Char → List Char
  | _, [] => []
  | prevSlash, c :: rest =>
    if c == '/' then
      if prevSlash then collapseSlashesAux true rest
      else '/' :: collapseSlashesAux true rest
    else c :: collapseSlashesAux false rest

/-- Modelled third-party collaborator: Node `path.join` as the crawler
uses it — join the non-empty segments with `/` and collapse duplicate
separators (no `.`/`..` segments ever reach it here). -/
def pathJoin (parts : List String) : String :=
  (collapseSlashesAux false
    (List.intercalate ['/'] ((parts.filter (fun p => !p.toList.isEmpty)).map String.toList))).asString

/-- Index of the last dot of a list, if any. -/
def lastDotIdx (l : List Char) : Option Nat :=
  (findSub ['.'] l.reverse).map (fun i => l.length - 1 - i)

/-- Modelled third-party collaborator: Node `path.extname` — the
extension of the final path segment, empty when the only dot leads the
segment. -/
def pathExtname (p : String) : String :=
  let base := (splitOnChar '/' p.toList).getLastD []
  match lastDotIdx base with
  | some i => if 0 < i then (base.drop i).asString else ""
  | none => ""

/-- Modelled third-party collaborator: Node `path.dirname` — everything
before the last slash, `/` for a root child, `.` when no slash occurs. -/
def pathDirname (p : String) : String :=
  match findSub ['/'] p.toList.reverse with
  | some i =>
    let cut := p.toList.take (p.toList.length - 1 - i)
    if cut.isEmpty then "/" else cut.asString
  | none => "."

/-! ## Output-path derivation (`Crawler.getFilePath`) -/

/-- Embeds the bundle branch of `Crawler.getFilePath`: the bundle
directory is derived from the rule's URL in flat style; the relative
path within the bundle is computed after appending a trailing slash to
both rule pathname and target pathname, so the exact root (empty
relative path) maps to the primary skill file and deeper pages map under
`references/` with slashes turned into underscores. -/
def bundleFilePath (rootPath : String) (cfg : Config) (urlStr : String) (r : Rule) : String :=
  let urlObj := parseUrl urlStr
  let outputDir := pathJoin [rootPath, cfg.output]
  let ruleUrl := stripTrailingSlash r.url
  let ruleObj := parseUrl ruleUrl
  let bundleName :=
    List.intercalate ['_'] (splitOnChar '/' (dropLeadingCharOnce '/' ruleObj.pathname).toList)
  let cleanDomain := (replaceChar '.' '_' ruleObj.hostname.toList).asString
  let bundleDir := cleanDomain ++ "_" ++ bundleName.asString
  let targetPath := if strEndsWith urlObj.pathname "/" then urlObj.pathname else urlObj.pathname ++ "/"
  let rulePath := if strEndsWith ruleObj.pathname "/" then ruleObj.pathname else ruleObj.pathname ++ "/"
  let relative :=
    if strStartsWith targetPath rulePath then
      (targetPath.toList.drop rulePath.toList.length).asString
    else if urlStr == ruleUrl then ""
    else ((splitOnChar '/' urlObj.pathname.toList).getLastD []).asString
  let relative := dropLeadingCharOnce '/' (dropTrailingCharOnce '/' relative)
  if relative.toList.isEmpty then
    pathJoin [outputDir, bundleDir, orDefaultStr cfg.file_rename "SKILL.md"]
  else
    pathJoin [outputDir, bundleDir, "references",
      (replaceChar '/' '_' relative.toList).asString ++ ".md"]

/-- Embeds the flat and hierarchical branches of `Crawler.getFilePath`.
Flat: strip `.html`, a trailing `/index`, a trailing and a leading slash
from the pathname, replace `%20` and then slashes by underscores, and
prepend the dotted-to-underscored host; the file inside is the rename
override or `SKILL.md`.  Hierarchical: mirror host and path, expanding a
trailing slash or empty path to `index` and adding `.md` when the path
has no extension; a rename override replaces the leaf name. -/
def stdFilePath (rootPath : String) (cfg : Config) (urlStr : String) : String :=
  let urlObj := parseUrl urlStr
  let outputDir := pathJoin [rootPath, cfg.output]
  if cfg.flat then
    let segment := urlObj.pathname
    let segment := dropSuffixIf segment ".html"
    let segment := dropSuffixIf segment "/index"
    let segment := dropTrailingCharOnce '/' segment
    let segment := dropLeadingCharOnce '/' segment
    let segment := (replaceSubFuel "%20".toList ['_'] segment.toList.length segment.toList).asString
    let segment := (List.intercalate ['_'] (splitOnChar '/' segment.toList)).asString
    let cleanDomain := (replaceChar '.' '_' urlObj.hostname.toList).asString
    let dirName := if segment.toList.isEmpty then cleanDomain else cleanDomain ++ "_" ++ segment
    pathJoin [outputDir, dirName, orDefaultStr cfg.file_rename "SKILL.md"]
  else
    let filePath := urlObj.pathname
    let filePath :=
      if strEndsWith filePath "/" || filePath == "" then pathJoin [filePath, "index"] else filePath
    let filePath := if pathExtname filePath == "" then filePath ++ ".md" else filePath
    match cfg.file_rename with
    | some rn =>
      if rn.toList.isEmpty then
        let fp := pathJoin [outputDir, urlObj.hostname, filePath]
        if strEndsWith fp ".md" then fp else fp ++ ".md"
      else
        pathJoin [pathJoin [outputDir, urlObj.hostname, pathDirname filePath], rn]
    | none =>
      let fp := pathJoin [outputDir, urlObj.hostname, filePath]
      if strEndsWith fp ".md" then fp else fp ++ ".md"

/-- Embeds `Crawler.getFilePath`: the bundle branch applies when a rule
is present and flagged `bundle`; otherwise the flat or hierarchical
logic applies. -/
def getFilePath (rootPath : String) (cfg : Config) (urlStr : String) (rule : Option Rule) : String :=
  match rule with
  | some r => if r.bundle then bundleFilePath rootPath cfg urlStr r else stdFilePath rootPath cfg urlStr
  | none => stdFilePath rootPath cfg urlStr

/-! ## Frontmatter synthesis and conditional-fetch header -/

/-- Embeds the frontmatter template of `Crawler.processPage` followed by
the converted body: the metadata block with `name`, `description`,
`metadata.url` and `metadata.last_modified`, a level-1 heading with the
raw title, then the markdown. -/
def frontmatterDoc (name desc url lastModified title markdown : String) : String :=
  "---\nname: " ++ name ++ "\ndescription: " ++ desc ++ "\nmetadata:\n  url: " ++ url ++
    "\n  last_modified: " ++ lastModified ++ "\n---\n\n# " ++ title ++ "\n\n" ++ markdown

/-- Modelled third-party collaborator: the `js-yaml` load of the
frontmatter block followed by the access `meta?.metadata?.last_modified`,
reduced to the frontmatter shape this tool itself writes — the value is
the rest of the line opened by the indented `last_modified:` key.  The
empty value is falsy in the source's guard, hence `none`. -/
def yamlLastModified (fm : List Char) : Option String :=
  let key := "\n  last_modified: ".toList
  match findSub key fm with
  | none => none
  | some i =>
    let v := takeUntilChar '\n' (fm.drop (i + key.length))
    if v.isEmpty then none else some v.asString

/-- Embeds the frontmatter probe of `Crawler.visit`: when the existing
file starts with `---` and a second `---` occurs past position 3, the
text between them is parsed and its `metadata.last_modified` becomes the
`If-Modified-Since` header value. -/
def extractLastModified (content : String) : Option String :=
  let l := content.toList
  if isPrefixCL "---".toList l then
    match findSub "---".toList (l.drop 3) with
    | none => none
    | some i => if 3 < i + 3 then yamlLastModified ((l.drop 3).take i) else none
  else none

/-- The filesystem as the crawler observes it: an association list from
paths to file contents. -/
def Files := List (String × String)

/-- Embeds `existsSync` plus `readFileSync`: the content at a path. -/
def lookupFile (fs : Files) (p : String) : Option String :=
  (List.find? (fun e => e.1 == p) fs).map (fun e => e.2)

/-- Embeds `writeFileSync`: overwrite or create the file at a path. -/
def setFile (fs : Files) (p c : String) : Files :=
  List.filter (fun e => !(e.1 == p)) fs ++ [(p, c)]

/-- Embeds the conditional-header computation of `Crawler.visit`: read
the file at the computed path, and extract its stored `last_modified` as
the `If-Modified-Since` value. -/
def condHeader (fs : Files) (p : String) : Option String :=
  (lookupFile fs p).bind extractLastModified

/-! ## Feed mining (`Crawler.extractLinksFromXml`) -/

/-- The longest prefix before the first occurrence of `stop` as a
sublist (the whole list when absent). -/
def takeUntilCL (stop : List Char) : List Char → List Char
  | [] => []
  | c :: rest => if isPrefixCL stop (c :: rest) then [] else c :: takeUntilCL stop rest

/-- Fuel-bounded extraction of the texts between an opening and a closing
delimiter; models the cheerio selections on the XML documents the
crawler mines.  The fuel is instantiated with the list length. -/
def extractBetweenFuel (op cl : List Char) : Nat → List Char → List (List Char)
  | 0, _ => []
  | _ + 1, [] => []
  | fuel + 1, c :: rest =>
    if isPrefixCL op (c :: rest) then
      let after := (c :: rest).drop op.length
      let txt := takeUntilCL cl after
      txt :: extractBetweenFuel op cl fuel ((after.drop txt.length).drop cl.length)
    else extractBetweenFuel op cl fuel rest

/-- Text between every `op`/`cl` delimiter pair. -/
def extractBetween (op cl : List Char) (l : List Char) : List (List Char) :=
  extractBetweenFuel op cl l.length l

/-- Embeds `Crawler.extractLinksFromXml`, with the cheerio tag selections
modelled as literal tag scans: guarded on XML-looking content, collect
sitemap `loc` texts, RSS `item`→`link` texts, and Atom `entry`→`link`
`href` attributes, each trimmed respectively read verbatim, skipping the
empty ones. -/
def extractLinksFromXml (xmlContent : String) : List String :=
  let l := xmlContent.toList
  if isPrefixCL "<?xml".toList (l.dropWhile isWsChar) || containsCL "<rss".toList l ||
      containsCL "<urlset".toList l || containsCL "<feed".toList l then
    let locs := (extractBetween "<loc>".toList "</loc>".toList l).map
      (fun t => ((t.dropWhile isWsChar).reverse.dropWhile isWsChar).reverse)
    let rss := (extractBetween "<link>".toList "</link>".toList l).map
      (fun t => ((t.dropWhile isWsChar).reverse.dropWhile isWsChar).reverse)
    let atom := extractBetween "<link href=\"".toList "\"".toList l
    ((locs ++ rss ++ atom).filter (fun t => !t.isEmpty)).map List.asString
  else []

/-! ## The crawl state machine (`Crawler.crawl` / `Crawler.visit`) -/

/-- A fetch outcome as the crawler distinguishes them: a transport error
(caught and logged), a 304 answer to the conditional header, or a 2xx
response carrying a content type and a body.  The `anchors` list models
the absolute, resolvable `a[href]` targets cheerio extracts from an HTML
body, already resolved against the page URL by the WHATWG parser. -/
inductive Resp where
  | err
  | notModified
  | ok (contentType : String) (body : String) (anchors : List String)

/-- The crawler's external collaborators: the network (a function from
URL and optional `If-Modified-Since` value to a response) and the
rendering pipeline of `processPage` (cheerio extraction plus turndown
conversion plus frontmatter synthesis), a function from page URL and
body to the final skill-document content. -/
structure Env where
  web : String → Option String → Resp
  render : String → String → String

/-- The run-wide mutable state of `Crawler`: the visited set, the log of
URLs actually fetched (one entry per network request issued), and the
filesystem. -/
structure CrawlState where
  visited : List String
  fetched : List String
  files : Files

/-- Embeds `Crawler.visit`: strip the fragment; return if already
visited or matched by an ignore rule; otherwise mark visited, read the
existing skill document at the computed path for a conditional header,
and fetch.  Errors and 304 end the visit.  An XML response (by `.xml`
suffix or content type) is mined for feed links and writes nothing; an
HTML response is rendered and written at the computed path, and, when
the rule has `subpaths`, its anchors are fragment-stripped, filtered by
the scope check against the rule URL, and visited recursively.  The
fuel bounds the recursion depth, standing for the finiteness of a run. -/
def visitM (env : Env) (cfg : Config) (rootPath : String) :
    Nat → Rule → CrawlState → String → CrawlState
  | 0, _, st, _ => st
  | fuel + 1, rule, st, url =>
    let cleanUrl := stripHash url
    if st.visited.contains cleanUrl then st
    else if shouldIgnore cfg.rules cleanUrl then st
    else
      let st1 : CrawlState :=
        { st with visited := cleanUrl :: st.visited, fetched := st.fetched ++ [cleanUrl] }
      let p := getFilePath rootPath cfg cleanUrl (some rule)
      let hdr := condHeader st1.files p
      match env.web cleanUrl hdr with
      | Resp.err => st1
      | Resp.notModified => st1
      | Resp.ok contentType body anchors =>
        let isXml := strEndsWith cleanUrl ".xml" || strContains contentType "xml" ||
          strContains contentType "rss"
        let isHtml := strContains contentType "text/html"
        if !isHtml && !isXml then st1
        else if isXml then
          (extractLinksFromXml body).foldl (fun s l => visitM env cfg rootPath fuel rule s l) st1
        else
          let content := env.render cleanUrl body
          let st2 : CrawlState := { st1 with files := setFile st1.files p content }
          let links :=
            if rule.subpaths then
              (anchors.map stripHash).filter (fun l => scopeAccept rule.url l)
            else []
          links.foldl (fun s l => visitM env cfg rootPath fuel rule s l) st2

/-- Embeds `Crawler.crawl`: from cleared state, visit the URL of every
rule whose action is `include`, each under its own rule. -/
def crawl (env : Env) (cfg : Config) (rootPath : String) (fuel : Nat) : CrawlState :=
  cfg.rules.foldl
    (fun st rule => if rule.action == "include" then visitM env cfg rootPath fuel rule st rule.url else st)
    { visited := [], fetched := [], files := [] }

/-- The de-duplication invariant of a crawl state: the fetch log has no
duplicates and every fetched URL is recorded in the visited set. -/
def FetchInv (st : CrawlState) : Prop :=
  st.fetched.Nodup ∧ ∀ u ∈ st.fetched, u ∈ st.visited

/-! ## The Go rule engine (`cmd/crawl.go`) -/

/-- Embeds `RuleConfig` of the Go CLI (`cmd/config.go`): a verbose rule
from the YAML configuration. -/
structure RuleConfig where
  url : String
  subpaths : Bool
  action : String

/-- Modelled third-party collaborator: the gobwas glob matcher as
`cmd/crawl.go` compiles it — no separator characters are passed, so `*`
matches any run of characters including the empty one, and every other
character is literal (the specification's "shell-style globbing, `*` =
any run of characters").  Fuel-bounded; every step shortens pattern or
input, so the sum of lengths plus one suffices. -/
def globMatchFuel : Nat → List Char → List Char → Bool
  | 0, _, _ => false
  | _ + 1, [], s => s.isEmpty
  | fuel + 1, p :: ps, s =>
    if p == '*' then
      globMatchFuel fuel ps s ||
        (match s with
         | [] => false
         | _ :: s' => globMatchFuel fuel (p :: ps) s')
    else
      match s with
      | [] => false
      | c :: s' => p == c && globMatchFuel fuel ps s'

/-- Glob matching of a full pattern against a full input. -/
def globMatch (pattern input : String) : Bool :=
  globMatchFuel (pattern.toList.length + input.toList.length + 1) pattern.toList input.toList

/-- Embeds `globRule` of `cmd/crawl.go`: a pattern together with its
compiled matcher.  Claims about arbitrary compiled sets quantify over
the matcher function. -/
structure GlobRule where
  pattern : String
  g : String → Bool

/-- Embeds the `processPattern` closure of `loadRules`: trim, skip blank
and `#` comment lines, split off a leading `!` as the deny marker,
compile, and append to the ignored respectively allowed list.  (The
modelled glob compiler cannot fail, so the malformed-pattern warning
path is vacuous here.) -/
def processPattern (st : List GlobRule × List GlobRule) (pattern : String) :
    List GlobRule × List GlobRule :=
  let pattern := trimSpace pattern
  if pattern == "" || strStartsWith pattern "#" then st
  else
    let isIgnore := strStartsWith pattern "!"
    let pattern := if isIgnore then (pattern.toList.drop 1).asString else pattern
    let rule : GlobRule := ⟨pattern, fun s => globMatch pattern s⟩
    if isIgnore then (st.1, st.2 ++ [rule]) else (st.1 ++ [rule], st.2)

/-- Embeds the verbose-rule compilation step of `loadRules` (step 3):
with `subpaths`, unless the URL already ends in `*`, append `/` when
missing and then `*`; an `ignore` action prepends `!`. -/
def rulePattern (r : RuleConfig) : String :=
  let pat := r.url
  let pat :=
    if r.subpaths then
      if strEndsWith pat "*" then pat
      else (if strEndsWith pat "/" then pat else pat ++ "/") ++ "*"
    else pat
  if r.action == "ignore" then "!" ++ pat else pat

/-- Embeds `loadRules`: fold `processPattern` over the external config
file's lines, then the inline patterns, then the compiled verbose rules;
returns the allowed and the ignored set. -/
def loadRules (fileLines : List String) (patterns : List String) (rules : List RuleConfig) :
    List GlobRule × List GlobRule :=
  let st := fileLines.foldl processPattern ([], [])
  let st := patterns.foldl processPattern st
  rules.foldl (fun st r => processPattern st (rulePattern r)) st

/-- Embeds `shouldVisit` of `cmd/crawl.go`: any ignore match rejects;
otherwise any allow match accepts; otherwise reject. -/
def shouldVisit (link : String) (allowed ignored : List GlobRule) : Bool :=
  if ignored.any (fun rule => rule.g link) then false
  else allowed.any (fun rule => rule.g link)

/-! ## General lemmas -/

theorem isPrefixCL_iff (a b : List Char) : isPrefixCL a b = true ↔ a <+: b := by
  induction a generalizing b with
  | nil => simp [isPrefixCL, List.nil_prefix]
  | cons x xs ih =>
    cases b with
    | nil => simp [isPrefixCL]
    | cons y ys =>
      simp [isPrefixCL, List.cons_prefix_cons, ih, Bool.and_eq_true, beq_iff_eq]

theorem asString_eq_empty_iff (l : List Char) : l.asString = "" ↔ l = [] := by
  constructor
  · intro h
    have hd : (l.asString).data = ("" : String).data := by rw [h]
    simpa [List.asString] using hd
  · intro h; subst h; rfl

theorem dropTrailing_length_le (c : Char) (l : List Char) :
    (dropTrailing c l).length ≤ l.length := by
  have h := (List.dropWhile_sublist (l := l.reverse) (· == c)).length_le
  simpa [dropTrailing, List.length_reverse] using h

theorem foldl_preserves {α β : Type} (P : β → Prop) (f : β → α → β)
    (h : ∀ b a, P b → P (f b a)) : ∀ (l : List α) (b : β), P b → P (l.foldl f b)
  | [], _, hb => hb
  | x :: xs, b, hb => foldl_preserves P f h xs (f b x) (h b x hb)

theorem find?_filter_not (fs : Files) (p : String) :
    List.find? (fun e => e.1 == p) (List.filter (fun e => !(e.1 == p)) fs) = none := by
  induction fs with
  | nil => rfl
  | cons e es ih =>
    cases hb : (e.1 == p) with
    | false => simp [List.filter_cons, hb, List.find?, ih]
    | true => simp [List.filter_cons, hb, ih]

theorem lookupFile_setFile_self (fs : Files) (p c : String) :
    lookupFile (setFile fs p c) p = some c := by
  simp [lookupFile, setFile, List.find?_append, find?_filter_not, List.find?]

theorem contains_eq_true_iff (l : List String) (a : String) :
    l.contains a = true ↔ a ∈ l := by
  simp [List.contains]

theorem slugTrunc_length_le (l : List Char) : (slugTrunc l).length ≤ 64 := by
  unfold slugTrunc
  split
  · calc (dropTrailing '-' (List.take 64 l)).length
        ≤ (List.take 64 l).length := dropTrailing_length_le _ _
      _ ≤ 64 := List.length_take_le _ _
  · omega

theorem slugFinish_length_le (l : List Char) (h : l.length ≤ 64) :
    (slugFinish l).length ≤ 64 := by
  unfold slugFinish
  split
  · decide
  · have : (l.asString).length = l.length := rfl
    omega

theorem slugFinish_ne_empty (l : List Char) : slugFinish l ≠ "" := by
  unfold slugFinish
  split
  · decide
  · rename_i h
    intro hc
    rw [asString_eq_empty_iff] at hc
    subst hc
    exact h rfl

/-! ## Glob-matching lemmas

The modelled gobwas matcher: one-step equations, fuel irrelevance above
the canonical bound, the absorption of any input by a final `*`, the
peeling of a literal (star-free) common prefix of pattern and input, and
the fact that the star-free head of a pattern must be a literal prefix
of any matched input. -/

theorem globMatchFuel_zero (p s : List Char) : globMatchFuel 0 p s = false := rfl

theorem globMatchFuel_star_nil (f : Nat) (ps : List Char) :
    globMatchFuel (f + 1) ('*' :: ps) [] = globMatchFuel f ps [] := by
  simp [globMatchFuel]

theorem globMatchFuel_star_cons (f : Nat) (ps : List Char) (c : Char) (s : List Char) :
    globMatchFuel (f + 1) ('*' :: ps) (c :: s) =
      (globMatchFuel f ps (c :: s) || globMatchFuel f ('*' :: ps) s) := by
  simp [globMatchFuel]

theorem globMatchFuel_lit_nil (f : Nat) (p : Char) (ps : List Char) (h : p ≠ '*') :
    globMatchFuel (f + 1) (p :: ps) [] = false := by
  simp [globMatchFuel, beq_eq_false_iff_ne.mpr h]

theorem globMatchFuel_lit_cons (f : Nat) (p : Char) (ps : List Char) (c : Char) (s : List Char)
    (h : p ≠ '*') :
    globMatchFuel (f + 1) (p :: ps) (c :: s) = (p == c && globMatchFuel f ps s) := by
  simp [globMatchFuel, beq_eq_false_iff_ne.mpr h]

theorem globMatchFuel_fuel_congr (n : Nat) :
    ∀ (p s : List Char) (f1 f2 : Nat), p.length + s.length ≤ n → n < f1 → n < f2 →
      globMatchFuel f1 p s = globMatchFuel f2 p s := by
  induction n with
  | zero =>
    intro p s f1 f2 hle h1 h2
    have hp : p = [] := List.eq_nil_of_length_eq_zero (by omega)
    have hs : s = [] := List.eq_nil_of_length_eq_zero (by omega)
    subst hp; subst hs
    obtain ⟨f1', rfl⟩ : ∃ k, f1 = k + 1 := ⟨f1 - 1, by omega⟩
    obtain ⟨f2', rfl⟩ : ∃ k, f2 = k + 1 := ⟨f2 - 1, by omega⟩
    rfl
  | succ n ih =>
    intro p s f1 f2 hle h1 h2
    obtain ⟨f1', rfl⟩ : ∃ k, f1 = k + 1 := ⟨f1 - 1, by omega⟩
    obtain ⟨f2', rfl⟩ : ∃ k, f2 = k + 1 := ⟨f2 - 1, by omega⟩
    cases p with
    | nil => rfl
    | cons pc ps =>
      simp only [List.length_cons] at hle
      by_cases hpc : pc = '*'
      · subst hpc
        cases s with
        | nil =>
          rw [globMatchFuel_star_nil, globMatchFuel_star_nil]
          exact ih ps [] f1' f2' (by simp only [List.length_nil] at hle ⊢; omega)
            (by omega) (by omega)
        | cons c s' =>
          simp only [List.length_cons] at hle
          rw [globMatchFuel_star_cons, globMatchFuel_star_cons,
            ih ps (c :: s') f1' f2' (by simp only [List.length_cons]; omega)
              (by omega) (by omega),
            ih ('*' :: ps) s' f1' f2' (by simp only [List.length_cons]; omega)
              (by omega) (by omega)]
      · cases s with
        | nil => rw [globMatchFuel_lit_nil _ _ _ hpc, globMatchFuel_lit_nil _ _ _ hpc]
        | cons c s' =>
          simp only [List.length_cons] at hle
          rw [globMatchFuel_lit_cons _ _ _ _ _ hpc, globMatchFuel_lit_cons _ _ _ _ _ hpc,
            ih ps s' f1' f2' (by omega) (by omega) (by omega)]

theorem globMatchFuel_star_all : ∀ (s : List Char) (f : Nat), s.length + 1 < f →
    globMatchFuel f ['*'] s = true := by
  intro s
  induction s with
  | nil =>
    intro f hf
    obtain ⟨f', rfl⟩ : ∃ k, f = k + 1 := ⟨f - 1, by omega⟩
    rw [globMatchFuel_star_nil]
    obtain ⟨f'', rfl⟩ : ∃ k, f' = k + 1 := ⟨f' - 1, by simp only [List.length_nil] at hf; omega⟩
    rfl
  | cons c s' ih =>
    intro f hf
    simp only [List.length_cons] at hf
    obtain ⟨f', rfl⟩ : ∃ k, f = k + 1 := ⟨f - 1, by omega⟩
    rw [globMatchFuel_star_cons, ih f' (by omega), Bool.or_true]

theorem globMatchFuel_peel : ∀ (xs ps s : List Char) (f : Nat), ('*' : Char) ∉ xs →
    (xs ++ ps).length + (xs ++ s).length < f →
    globMatchFuel f (xs ++ ps) (xs ++ s) = globMatchFuel (f - xs.length) ps s := by
  intro xs
  induction xs with
  | nil => intro ps s f _ _; simp
  | cons x xs' ih =>
    intro ps s f h hf
    obtain ⟨f', rfl⟩ : ∃ k, f = k + 1 := ⟨f - 1, by omega⟩
    have hx : x ≠ '*' := by intro hc; subst hc; exact h (List.mem_cons_self _ _)
    have hnot : ('*' : Char) ∉ xs' := fun hm => h (List.mem_cons_of_mem _ hm)
    simp only [List.cons_append]
    rw [globMatchFuel_lit_cons _ _ _ _ _ hx, beq_self_eq_true, Bool.true_and,
      ih ps s f' hnot
        (by simp only [List.cons_append, List.length_cons] at hf; omega)]
    have harith : f' + 1 - (x :: xs').length = f' - xs'.length := by
      simp only [List.length_cons]; omega
    rw [harith]

theorem globMatchFuel_starfree_prefix : ∀ (xs ps s : List Char) (f : Nat), ('*' : Char) ∉ xs →
    globMatchFuel f (xs ++ ps) s = true → xs <+: s := by
  intro xs
  induction xs with
  | nil => intro ps s f _ _; exact List.nil_prefix
  | cons x xs' ih =>
    intro ps s f h hm
    cases f with
    | zero => rw [globMatchFuel_zero] at hm; cases hm
    | succ f' =>
      have hx : x ≠ '*' := by intro hc; subst hc; exact h (List.mem_cons_self _ _)
      have hnot : ('*' : Char) ∉ xs' := fun hmm => h (List.mem_cons_of_mem _ hmm)
      cases s with
      | nil =>
        rw [List.cons_append, globMatchFuel_lit_nil _ _ _ hx] at hm
        cases hm
      | cons c s' =>
        rw [List.cons_append, globMatchFuel_lit_cons _ _ _ _ _ hx, Bool.and_eq_true] at hm
        obtain ⟨hxc, hrec⟩ := hm
        have hxc' : x = c := beq_iff_eq.mp hxc
        subst hxc'
        exact List.cons_prefix_cons.mpr ⟨rfl, ih ps s' f' hnot hrec⟩

theorem strToList_append (a b : String) : (a ++ b).toList = a.toList ++ b.toList :=
  String.data_append a b

theorem starfree_append_slash (U : String) (h : ('*' : Char) ∉ U.toList) :
    ('*' : Char) ∉ U.toList ++ ['/'] := by
  intro hm
  rcases List.mem_append.mp hm with h1 | h2
  · exact h h1
  · simp at h2

theorem append_ne_empty_of_suffix (a suf : String) (hsuf : suf.toList ≠ []) : a ++ suf ≠ "" := by
  intro hc
  have hd := congrArg String.toList hc
  rw [strToList_append] at hd
  exact hsuf (List.append_eq_nil.mp hd).2

theorem globMatch_root_reject (U : String) (h : ('*' : Char) ∉ U.toList) :
    globMatch (U ++ "/*") U = false := by
  cases hg : globMatch (U ++ "/*") U with
  | false => rfl
  | true =>
    exfalso
    unfold globMatch at hg
    have hL : (U ++ "/*").toList = (U.toList ++ ['/']) ++ ['*'] := by
      rw [List.append_assoc]
      exact strToList_append U "/*"
    rw [hL] at hg
    have hpre := globMatchFuel_starfree_prefix (U.toList ++ ['/']) ['*'] U.toList _
      (starfree_append_slash U h) hg
    have hlen := hpre.length_le
    simp only [List.length_append, List.length_cons, List.length_nil] at hlen
    omega

theorem globMatch_slash_descendants (U rest : String) (h : ('*' : Char) ∉ U.toList) :
    globMatch (U ++ "/*") (U ++ "/" ++ rest) = true := by
  unfold globMatch
  have hP : (U ++ "/*").toList = (U.toList ++ ['/']) ++ ['*'] := by
    rw [List.append_assoc]
    exact strToList_append U "/*"
  have hI : (U ++ "/" ++ rest).toList = (U.toList ++ ['/']) ++ rest.toList := by
    rw [strToList_append, strToList_append]
    rfl
  rw [hP, hI,
    globMatchFuel_peel (U.toList ++ ['/']) ['*'] rest.toList _
      (starfree_append_slash U h)
      (by simp only [List.length_append, List.length_cons, List.length_nil]; omega)]
  exact globMatchFuel_star_all rest.toList _
    (by simp only [List.length_append, List.length_cons, List.length_nil]; omega)

theorem globMatch_star_descendants (U rest : String) (h : ('*' : Char) ∉ U.toList) :
    globMatch (U ++ "*") (U ++ rest) = true := by
  unfold globMatch
  have hP : (U ++ "*").toList = U.toList ++ ['*'] := strToList_append U "*"
  have hI : (U ++ rest).toList = U.toList ++ rest.toList := strToList_append U rest
  rw [hP, hI,
    globMatchFuel_peel U.toList ['*'] rest.toList _ h
      (by simp only [List.length_append, List.length_cons, List.length_nil]; omega)]
  exact globMatchFuel_star_all rest.toList _
    (by simp only [List.length_append, List.length_cons, List.length_nil]; omega)

theorem strEndsWith_star_eq_false (U : String) (h : ('*' : Char) ∉ U.toList) :
    strEndsWith U "*" = false := by
  cases hE : strEndsWith U "*" with
  | false => rfl
  | true =>
    exfalso
    unfold strEndsWith at hE
    obtain ⟨t, ht⟩ := (isPrefixCL_iff _ _).mp hE
    have hmem : ('*' : Char) ∈ U.toList.reverse := by
      rw [← ht]
      exact List.mem_append.mpr (Or.inl (by decide))
    exact h (List.mem_reverse.mp hmem)

/-! ## Claim C1 -/

/-- C1: for every URL and every set of compiled rules, `shouldVisit`
accepts exactly when no deny rule matches and at least one allow rule
matches — so any deny match rejects regardless of the allow matches and
of declaration order, and with no deny match the URL is accepted iff
some allow pattern matches and rejected when none does. -/
theorem shouldVisit_deny_precedence (link : String) (allowed ignored : List GlobRule) :
    shouldVisit link allowed ignored = true ↔
      ((∀ r ∈ ignored, r.g link = false) ∧ ∃ r ∈ allowed, r.g link = true) := by
  unfold shouldVisit
  cases h : ignored.any (fun rule => rule.g link) with
  | true =>
    obtain ⟨r, hr, hg⟩ := List.any_eq_true.mp h
    rw [if_pos rfl]
    constructor
    · intro hfalse; cases hfalse
    · rintro ⟨hall, -⟩
      rw [hall r hr] at hg; cases hg
  | false =>
    have hall : ∀ r ∈ ignored, r.g link = false := by
      intro r hr
      cases hg : r.g link with
      | false => rfl
      | true => exact absurd (List.any_eq_true.mpr ⟨r, hr, hg⟩) (by rw [h]; intro hc; cases hc)
    rw [if_neg Bool.false_ne_true]
    rw [List.any_eq_true]
    exact ⟨fun ⟨r, hr, hg⟩ => ⟨hall, r, hr, hg⟩, fun ⟨_, r, hr, hg⟩ => ⟨r, hr, hg⟩⟩

/-! ## Claim C2 -/

/-- C2: the link-discovery scope filter of the subpath branch accepts a
candidate exactly when its trailing-slash-normalized form equals the
rule URL's or extends it past a path separator; in particular, for rule
URL `https://example.com/posts` the page `/posts/1` passes and the page
`/posts-extra` does not. -/
theorem scopeAccept_strict_subpaths :
    (∀ ruleUrl absoluteUrl,
        scopeAccept ruleUrl absoluteUrl = true ↔ specScopeAccept ruleUrl absoluteUrl)
    ∧ scopeAccept "https://example.com/posts" "https://example.com/posts/1" = true
    ∧ scopeAccept "https://example.com/posts" "https://example.com/posts-extra" = false := by
  refine ⟨?_, by decide, by decide⟩
  intro ruleUrl absoluteUrl
  unfold scopeAccept specScopeAccept
  simp [Bool.or_eq_true, beq_iff_eq, strStartsWith, isPrefixCL_iff]

/-! ## Claim C7 -/

/-- C7: under the bundle rule rooted at
`https://pub.dev/packages/http/versions/1.1.0`, the root URL maps to the
bundle's `SKILL.md` (or the rename override), while the deeper
`.../changelog` page maps to `references/changelog.md` in the same
bundle directory — the trailing-slash normalization keeping the exact
root distinct from deeper pages. -/
theorem getFilePath_bundle_naming :
    getFilePath "" ⟨".skillscache", false, none,
        [⟨"https://pub.dev/packages/http/versions/1.1.0", true, "include", true⟩]⟩
        "https://pub.dev/packages/http/versions/1.1.0"
        (some ⟨"https://pub.dev/packages/http/versions/1.1.0", true, "include", true⟩) =
      ".skillscache/pub_dev_packages_http_versions_1.1.0/SKILL.md"
    ∧ getFilePath "" ⟨".skillscache", false, none,
        [⟨"https://pub.dev/packages/http/versions/1.1.0", true, "include", true⟩]⟩
        "https://pub.dev/packages/http/versions/1.1.0/changelog"
        (some ⟨"https://pub.dev/packages/http/versions/1.1.0", true, "include", true⟩) =
      ".skillscache/pub_dev_packages_http_versions_1.1.0/references/changelog.md"
    ∧ getFilePath "" ⟨".skillscache", false, some "MAIN.md",
        [⟨"https://pub.dev/packages/http/versions/1.1.0", true, "include", true⟩]⟩
        "https://pub.dev/packages/http/versions/1.1.0"
        (some ⟨"https://pub.dev/packages/http/versions/1.1.0", true, "include", true⟩) =
      ".skillscache/pub_dev_packages_http_versions_1.1.0/MAIN.md" := by
  refine ⟨by decide, by decide, by decide⟩

/-! ## Claim C8 -/

/-- C8: in flat mode with the default rename,
`https://docs.flutter.dev/get-started/install` lands in the single
directory `docs_flutter_dev_get-started_install` (dots of the host and
slashes of the path turned into underscores) holding the default skill
file, and the `/index.html`-suffixed and trailing-slash variants of the
URL land in the same place. -/
theorem getFilePath_flat_naming :
    getFilePath "" ⟨".skillscache", true, none, []⟩
        "https://docs.flutter.dev/get-started/install" none =
      ".skillscache/docs_flutter_dev_get-started_install/SKILL.md"
    ∧ getFilePath "" ⟨".skillscache", true, none, []⟩
        "https://docs.flutter.dev/get-started/install/index.html" none =
      ".skillscache/docs_flutter_dev_get-started_install/SKILL.md"
    ∧ getFilePath "" ⟨".skillscache", true, none, []⟩
        "https://docs.flutter.dev/get-started/install/" none =
      ".skillscache/docs_flutter_dev_get-started_install/SKILL.md" := by
  refine ⟨by decide, by decide, by decide⟩

/-! ## Claim C9 -/

/-- C9 counterexample: the claim's slug (maximal runs of characters
outside `[a-z0-9]` collapsed to one hyphen) sends `a--b` to `a-b`, but
`sanitizeName` keeps hyphens in its regex class `[^a-z0-9-]+` and
returns `a--b` unchanged, so the claimed characterization fails at the
title `a--b`. -/
theorem sanitizeName_counterexample :
    sanitizeName "a--b" = "a--b" ∧ specSlugName "a--b" = "a-b"
    ∧ sanitizeName "a--b" ≠ specSlugName "a--b" := by
  refine ⟨by decide, by decide, by decide⟩

/-- C9 amended: the frontmatter name slug equals the title lowercased
with every maximal run of characters outside `[a-z0-9-]` — hyphens kept
— collapsed to a single hyphen, leading and trailing hyphens trimmed,
truncated to at most 64 characters with hyphens left trailing by the cut
dropped, and `untitled` when empty; in particular the result never
exceeds 64 characters and is never empty. -/
theorem sanitizeName_amended (s : String) :
    sanitizeName s = specSlugKeepHyphen s
    ∧ (sanitizeName s).length ≤ 64 ∧ sanitizeName s ≠ "" := by
  refine ⟨rfl, slugFinish_length_le _ (slugTrunc_length_le _), slugFinish_ne_empty _⟩

/-! ## Claim C3 -/

/-- C3 counterexample: compiling the structured rule with url
`https://x/docs` and `subpaths` true yields exactly the allow pattern
`https://x/docs/*` and no deny pattern, yet under the resulting compiled
sets the root URL `https://x/docs` itself is rejected by `shouldVisit` —
the glob's `/` is mandatory, so the root is not individually allowed. -/
theorem subpaths_root_counterexample :
    (loadRules [] [] [⟨"https://x/docs", true, "include"⟩]).1.map GlobRule.pattern =
      ["https://x/docs/*"]
    ∧ (loadRules [] [] [⟨"https://x/docs", true, "include"⟩]).2.length = 0
    ∧ shouldVisit "https://x/docs"
        (loadRules [] [] [⟨"https://x/docs", true, "include"⟩]).1
        (loadRules [] [] [⟨"https://x/docs", true, "include"⟩]).2 = false := by
  refine ⟨by decide, by decide, by decide⟩

/-- C3 amended: for every structured rule with url `U` and `subpaths`
true, where `U` is a plain URL string — no wildcard character, no
surrounding whitespace, and the compiled pattern starts with neither `#`
nor `!` — rule compilation produces the allow pattern `U + "/*"`,
inserting the `/` only when `U` does not already end in one.  Under the
resulting compiled sets: when `U` ends with a slash the root URL itself
is still accepted (the trailing star matches the empty run), and so is
every extension of `U`; but when `U` does not end with a slash the bare
root URL `U` is rejected — only the slash-terminated root and the pages
below it are accepted — so `U` does not remain individually allowed. -/
theorem subpaths_pattern_amended (U : String)
    (hstar : ('*' : Char) ∉ U.toList)
    (hws : trimSpace (rulePattern ⟨U, true, "include"⟩) = rulePattern ⟨U, true, "include"⟩)
    (hhash : strStartsWith (rulePattern ⟨U, true, "include"⟩) "#" = false)
    (hbang : strStartsWith (rulePattern ⟨U, true, "include"⟩) "!" = false) :
    rulePattern ⟨U, true, "include"⟩ = (if strEndsWith U "/" then U ++ "*" else U ++ "/*")
    ∧ (strEndsWith U "/" = false →
        shouldVisit U (loadRules [] [] [⟨U, true, "include"⟩]).1
          (loadRules [] [] [⟨U, true, "include"⟩]).2 = false)
    ∧ (strEndsWith U "/" = false → ∀ rest,
        shouldVisit (U ++ "/" ++ rest) (loadRules [] [] [⟨U, true, "include"⟩]).1
          (loadRules [] [] [⟨U, true, "include"⟩]).2 = true)
    ∧ (strEndsWith U "/" = true → ∀ rest,
        shouldVisit (U ++ rest) (loadRules [] [] [⟨U, true, "include"⟩]).1
          (loadRules [] [] [⟨U, true, "include"⟩]).2 = true) := by
  have hpat : rulePattern ⟨U, true, "include"⟩ =
      (if strEndsWith U "/" then U ++ "*" else U ++ "/*") := by
    simp only [rulePattern]
    cases hE : strEndsWith U "/" with
    | true =>
      simp [hE, strEndsWith_star_eq_false U hstar]
    | false =>
      simp only [hE, strEndsWith_star_eq_false U hstar]
      simp [String.append_assoc]
  have hne' : rulePattern ⟨U, true, "include"⟩ ≠ "" := by
    rw [hpat]
    split
    · exact append_ne_empty_of_suffix U "*" (by decide)
    · exact append_ne_empty_of_suffix U "/*" (by decide)
  have hne : (rulePattern ⟨U, true, "include"⟩ == "") = false := beq_eq_false_iff_ne.mpr hne'
  have hload : loadRules [] [] [⟨U, true, "include"⟩] =
      ([⟨rulePattern ⟨U, true, "include"⟩,
         fun s => globMatch (rulePattern ⟨U, true, "include"⟩) s⟩], []) := by
    simp only [loadRules, List.foldl_nil, List.foldl_cons]
    simp only [processPattern]
    rw [hws, hne, hhash]
    simp only [Bool.or_self]
    rw [if_neg Bool.false_ne_true, hbang, if_neg Bool.false_ne_true,
      if_neg Bool.false_ne_true, List.nil_append]
  have hload1 : (loadRules [] [] [⟨U, true, "include"⟩]).1 =
      [⟨rulePattern ⟨U, true, "include"⟩,
        fun s => globMatch (rulePattern ⟨U, true, "include"⟩) s⟩] := by
    rw [hload]
  have hload2 : (loadRules [] [] [⟨U, true, "include"⟩]).2 = [] := by
    rw [hload]
  have hsv : ∀ link, shouldVisit link
      [⟨rulePattern ⟨U, true, "include"⟩,
        fun s => globMatch (rulePattern ⟨U, true, "include"⟩) s⟩] [] =
      globMatch (rulePattern ⟨U, true, "include"⟩) link := by
    intro link
    unfold shouldVisit
    simp only [List.any_cons, List.any_nil, Bool.or_false]
    rw [if_neg Bool.false_ne_true]
  refine ⟨hpat, ?_, ?_, ?_⟩
  · intro hE
    rw [hload1, hload2, hsv U, hpat, if_neg (by rw [hE]; exact Bool.false_ne_true)]
    exact globMatch_root_reject U hstar
  · intro hE rest
    rw [hload1, hload2, hsv (U ++ "/" ++ rest), hpat,
      if_neg (by rw [hE]; exact Bool.false_ne_true)]
    exact globMatch_slash_descendants U rest hstar
  · intro hE rest
    rw [hload1, hload2, hsv (U ++ rest), hpat, if_pos hE]
    exact globMatch_star_descendants U rest hstar

/-- C3 witness: the amended theorem applied at `https://x/docs` — the
pattern equation, the rejection of the bare root, and the acceptance of
the deeper page `intro`. -/
theorem subpaths_pattern_amended_witness :
    (('*' : Char) ∉ "https://x/docs".toList)
    ∧ rulePattern ⟨"https://x/docs", true, "include"⟩ =
        (if strEndsWith "https://x/docs" "/" then "https://x/docs" ++ "*"
         else "https://x/docs" ++ "/*")
    ∧ shouldVisit "https://x/docs"
        (loadRules [] [] [⟨"https://x/docs", true, "include"⟩]).1
        (loadRules [] [] [⟨"https://x/docs", true, "include"⟩]).2 = false
    ∧ shouldVisit ("https://x/docs" ++ "/" ++ "intro")
        (loadRules [] [] [⟨"https://x/docs", true, "include"⟩]).1
        (loadRules [] [] [⟨"https://x/docs", true, "include"⟩]).2 = true :=
  ⟨by decide,
    (subpaths_pattern_amended "https://x/docs" (by decide) (by decide) (by decide) (by decide)).1,
    (subpaths_pattern_amended "https://x/docs" (by decide) (by decide) (by decide)
      (by decide)).2.1 (by decide),
    (subpaths_pattern_amended "https://x/docs" (by decide) (by decide) (by decide)
      (by decide)).2.2.1 (by decide) "intro"⟩

/-! ## Claim C10 -/

/-- C10: in the TypeScript crawler a URL is matched by `shouldIgnore`
exactly when some rule with action `ignore` equals it or is a raw string
prefix of it — no path-separator boundary, so the ignore rule for
`https://example.com/posts` also blocks `https://example.com/posts-extra`
— the `subpaths` flags have no effect on the check, and a matched URL is
rejected before any fetch: `visit` leaves the whole crawl state (fetch
log included) unchanged. -/
theorem shouldIgnore_raw_string_check :
    (∀ rules url, shouldIgnore rules url = true ↔
        ∃ r ∈ rules, r.action = "ignore" ∧ (url = r.url ∨ strStartsWith url r.url = true))
    ∧ (∀ rules url b,
        shouldIgnore (rules.map (fun r => { r with subpaths := b })) url = shouldIgnore rules url)
    ∧ shouldIgnore [⟨"https://example.com/posts", false, "ignore", false⟩]
        "https://example.com/posts-extra" = true
    ∧ (∀ env cfg rootPath fuel rule st url,
        shouldIgnore cfg.rules (stripHash url) = true →
        visitM env cfg rootPath fuel rule st url = st) := by
  refine ⟨?_, ?_, by decide, ?_⟩
  · intro rules url
    unfold shouldIgnore
    rw [List.any_eq_true]
    constructor
    · rintro ⟨r, hr, hb⟩
      rw [Bool.and_eq_true, Bool.or_eq_true] at hb
      obtain ⟨ha, hor⟩ := hb
      refine ⟨r, hr, beq_iff_eq.mp ha, ?_⟩
      rcases hor with he | hp
      · exact Or.inl (beq_iff_eq.mp he)
      · exact Or.inr hp
    · rintro ⟨r, hr, ha, hor⟩
      refine ⟨r, hr, ?_⟩
      rw [Bool.and_eq_true, Bool.or_eq_true]
      refine ⟨beq_iff_eq.mpr ha, ?_⟩
      rcases hor with he | hp
      · exact Or.inl (beq_iff_eq.mpr he)
      · exact Or.inr hp
  · intro rules url b
    unfold shouldIgnore
    rw [List.any_map]
    rfl
  · intro env cfg rootPath fuel rule st url h
    cases fuel with
    | zero => rfl
    | succ n =>
      simp only [visitM, h]
      split
      · rfl
      · rw [if_pos trivial]

/-! ## Claim C5 -/

/-- Preservation of the de-duplication invariant by one visit: a fetch
happens only after the visited-set check fails, and the URL enters the
visited set in the same step. -/
theorem visitM_FetchInv (env : Env) (cfg : Config) (rootPath : String) :
    ∀ (fuel : Nat) (rule : Rule) (st : CrawlState) (url : String),
      FetchInv st → FetchInv (visitM env cfg rootPath fuel rule st url) := by
  intro fuel
  induction fuel with
  | zero => intro rule st url h; exact h
  | succ fuel ih =>
    intro rule st url h
    simp only [visitM]
    split
    · exact h
    · split
      · exact h
      · rename_i hv hi
        have hnotin : stripHash url ∉ st.visited := by
          intro hmem
          exact hv ((contains_eq_true_iff _ _).mpr hmem)
        have hst1 : FetchInv
            ⟨stripHash url :: st.visited, st.fetched ++ [stripHash url], st.files⟩ := by
          obtain ⟨hnd, hsub⟩ := h
          refine ⟨?_, ?_⟩
          · rw [List.nodup_append]
            refine ⟨hnd, List.nodup_singleton _, ?_⟩
            intro a ha hb
            rw [List.mem_singleton] at hb
            subst hb
            exact hnotin (hsub _ ha)
          · intro u hu
            rcases List.mem_append.mp hu with h1 | h2
            · exact List.mem_cons_of_mem _ (hsub _ h1)
            · rw [List.mem_singleton] at h2
              subst h2
              exact List.mem_cons_self _ _
        split
        · exact hst1
        · exact hst1
        · split
          · exact hst1
          · split
            · exact foldl_preserves FetchInv _ (fun b a hb => ih rule b a hb) _ _ hst1
            · exact foldl_preserves FetchInv _ (fun b a hb => ih rule b a hb) _ _ hst1

/-- C5: within one crawl run, every distinct normalized URL is fetched
at most once — the fetch log of a whole run has no duplicate entries, no
matter the configuration, the network's answers, the discovered links or
how many rules re-produce the same URL. -/
theorem crawl_fetches_each_url_once (env : Env) (cfg : Config) (rootPath : String) (fuel : Nat) :
    (crawl env cfg rootPath fuel).fetched.Nodup := by
  have hinv : FetchInv (crawl env cfg rootPath fuel) := by
    unfold crawl
    refine foldl_preserves FetchInv _ ?_ _ _ ?_
    · intro b a hb
      split
      · exact visitM_FetchInv env cfg rootPath fuel a b a.url hb
      · exact hb
    · exact ⟨List.nodup_nil, fun u hu => absurd hu (List.not_mem_nil u)⟩
  exact hinv.1

/-! ## Claim C4 -/

/-- C4: when the skill document already stored at the visit's computed
path carries `metadata.last_modified` `Wed, 21 Oct 2015 07:28:00 GMT`,
the next visit of that URL derives exactly that value as the
`If-Modified-Since` header; a not-modified answer to that header ends
the visit with the filesystem unchanged, and a fresh HTML answer leaves
the file at that same computed path overwritten with the newly rendered
document. -/
theorem conditional_refetch (env : Env) (cfg : Config) (rootPath : String)
    (fuel : Nat) (rule : Rule) (st : CrawlState) (url : String)
    (hv : st.visited.contains (stripHash url) = false)
    (hi : shouldIgnore cfg.rules (stripHash url) = false)
    (hf : lookupFile st.files (getFilePath rootPath cfg (stripHash url) (some rule)) =
      some (frontmatterDoc "pkg" "A package." "https://example.com/page"
        "Wed, 21 Oct 2015 07:28:00 GMT" "Title" "Body text")) :
    condHeader st.files (getFilePath rootPath cfg (stripHash url) (some rule)) =
        some "Wed, 21 Oct 2015 07:28:00 GMT"
    ∧ (env.web (stripHash url) (some "Wed, 21 Oct 2015 07:28:00 GMT") = Resp.notModified →
        (visitM env cfg rootPath (fuel + 1) rule st url).files = st.files)
    ∧ (∀ ct body anchors,
        env.web (stripHash url) (some "Wed, 21 Oct 2015 07:28:00 GMT") = Resp.ok ct body anchors →
        strContains ct "text/html" = true →
        strEndsWith (stripHash url) ".xml" = false →
        strContains ct "xml" = false →
        strContains ct "rss" = false →
        rule.subpaths = false →
        lookupFile (visitM env cfg rootPath (fuel + 1) rule st url).files
            (getFilePath rootPath cfg (stripHash url) (some rule)) =
          some (env.render (stripHash url) body)) := by
  have hv' : ¬ (st.visited.contains (stripHash url) = true) := by
    rw [hv]; exact Bool.false_ne_true
  have hi' : ¬ (shouldIgnore cfg.rules (stripHash url) = true) := by
    rw [hi]; exact Bool.false_ne_true
  have h1 : condHeader st.files (getFilePath rootPath cfg (stripHash url) (some rule)) =
      some "Wed, 21 Oct 2015 07:28:00 GMT" := by
    unfold condHeader
    rw [hf]
    decide
  refine ⟨h1, ?_, ?_⟩
  · intro hw
    simp only [visitM]
    rw [if_neg hv', if_neg hi', h1, hw]
  · intro ct body anchors hw hhtml hx1 hx2 hx3 hsub
    simp only [visitM]
    rw [if_neg hv', if_neg hi', h1, hw]
    simp only [hhtml, hx1, hx2, hx3, hsub, Bool.or_self, Bool.or_false, Bool.false_or,
      Bool.not_true, Bool.not_false, Bool.and_false, Bool.false_and, Bool.and_self,
      if_false, List.foldl_nil]
    exact lookupFile_setFile_self _ _ _

/-- C4 witness: the theorem applied at a concrete configuration, once
with a not-modified network and once with a fresh-content network. -/
theorem conditional_refetch_witness :
    lookupFile [(getFilePath "" ⟨".skillscache", true, none, []⟩
          (stripHash "https://example.com/page") (some ⟨"https://example.com/page", false, "include", false⟩),
        frontmatterDoc "pkg" "A package." "https://example.com/page"
          "Wed, 21 Oct 2015 07:28:00 GMT" "Title" "Body text")]
      (getFilePath "" ⟨".skillscache", true, none, []⟩
        (stripHash "https://example.com/page") (some ⟨"https://example.com/page", false, "include", false⟩)) =
      some (frontmatterDoc "pkg" "A package." "https://example.com/page"
        "Wed, 21 Oct 2015 07:28:00 GMT" "Title" "Body text")
    ∧ (visitM ⟨fun _ _ => Resp.notModified, fun _ b => b⟩ ⟨".skillscache", true, none, []⟩ "" 1
        ⟨"https://example.com/page", false, "include", false⟩
        ⟨[], [], [(getFilePath "" ⟨".skillscache", true, none, []⟩
            (stripHash "https://example.com/page") (some ⟨"https://example.com/page", false, "include", false⟩),
          frontmatterDoc "pkg" "A package." "https://example.com/page"
            "Wed, 21 Oct 2015 07:28:00 GMT" "Title" "Body text")]⟩
        "https://example.com/page").files =
      [(getFilePath "" ⟨".skillscache", true, none, []⟩
          (stripHash "https://example.com/page") (some ⟨"https://example.com/page", false, "include", false⟩),
        frontmatterDoc "pkg" "A package." "https://example.com/page"
          "Wed, 21 Oct 2015 07:28:00 GMT" "Title" "Body text")]
    ∧ lookupFile (visitM ⟨fun _ _ => Resp.ok "text/html" "NEW BODY" [], fun _ b => b⟩
        ⟨".skillscache", true, none, []⟩ "" 1
        ⟨"https://example.com/page", false, "include", false⟩
        ⟨[], [], [(getFilePath "" ⟨".skillscache", true, none, []⟩
            (stripHash "https://example.com/page") (some ⟨"https://example.com/page", false, "include", false⟩),
          frontmatterDoc "pkg" "A package." "https://example.com/page"
            "Wed, 21 Oct 2015 07:28:00 GMT" "Title" "Body text")]⟩
        "https://example.com/page").files
        (getFilePath "" ⟨".skillscache", true, none, []⟩
          (stripHash "https://example.com/page") (some ⟨"https://example.com/page", false, "include", false⟩)) =
      some "NEW BODY" :=
  ⟨by decide,
    (conditional_refetch ⟨fun _ _ => Resp.notModified, fun _ b => b⟩
      ⟨".skillscache", true, none, []⟩ "" 0
      ⟨"https://example.com/page", false, "include", false⟩ _ "https://example.com/page"
      (by decide) (by decide) (by decide)).2.1 rfl,
    (conditional_refetch ⟨fun _ _ => Resp.ok "text/html" "NEW BODY" [], fun _ b => b⟩
      ⟨".skillscache", true, none, []⟩ "" 0
      ⟨"https://example.com/page", false, "include", false⟩ _ "https://example.com/page"
      (by decide) (by decide) (by decide)).2.2 "text/html" "NEW BODY" [] rfl
      (by decide) (by decide) (by decide) (by decide) rfl⟩

/-! ## Claim C6 -/

/-- C6: a fetched target whose URL or content type signals a feed is
mined instead of rendered — the visit equals a fold of recursive visits
over exactly the links `extractLinksFromXml` finds in the body, started
from a state whose filesystem is untouched (the feed target itself
writes no skill document); and the example sitemap with
`loc` entry `https://example.com/post-1` yields exactly that link. -/
theorem feed_mining (env : Env) (cfg : Config) (rootPath : String)
    (fuel : Nat) (rule : Rule) (st : CrawlState) (url : String)
    (ct body : String) (anchors : List String)
    (hv : st.visited.contains (stripHash url) = false)
    (hi : shouldIgnore cfg.rules (stripHash url) = false)
    (hw : env.web (stripHash url)
        (condHeader st.files (getFilePath rootPath cfg (stripHash url) (some rule))) =
      Resp.ok ct body anchors)
    (hx : (strEndsWith (stripHash url) ".xml" || strContains ct "xml" ||
        strContains ct "rss") = true) :
    visitM env cfg rootPath (fuel + 1) rule st url =
      (extractLinksFromXml body).foldl (fun s l => visitM env cfg rootPath fuel rule s l)
        ⟨stripHash url :: st.visited, st.fetched ++ [stripHash url], st.files⟩
    ∧ (⟨stripHash url :: st.visited, st.fetched ++ [stripHash url], st.files⟩ : CrawlState).files
        = st.files
    ∧ extractLinksFromXml
        "<?xml version=\"1.0\"?>\n<urlset><url><loc>https://example.com/post-1</loc></url></urlset>"
        = ["https://example.com/post-1"] := by
  have hv' : ¬ (st.visited.contains (stripHash url) = true) := by
    rw [hv]; exact Bool.false_ne_true
  have hi' : ¬ (shouldIgnore cfg.rules (stripHash url) = true) := by
    rw [hi]; exact Bool.false_ne_true
  refine ⟨?_, rfl, by decide⟩
  simp only [visitM]
  rw [if_neg hv', if_neg hi', hw]
  simp only [hx, Bool.not_true, Bool.and_false, if_false]
  rw [if_neg Bool.false_ne_true, if_pos trivial]

/-- C6 witness: the theorem applied at a sitemap URL served with an XML
body carrying one `loc` entry. -/
theorem feed_mining_witness :
    strEndsWith (stripHash "https://example.com/sitemap.xml") ".xml" = true
    ∧ visitM ⟨fun _ _ => Resp.ok "application/xml"
          "<?xml version=\"1.0\"?>\n<urlset><url><loc>https://example.com/post-1</loc></url></urlset>" [],
        fun _ b => b⟩
        ⟨".skillscache", true, none, []⟩ "" 1 ⟨"https://example.com/sitemap.xml", true, "include", false⟩
        ⟨[], [], []⟩ "https://example.com/sitemap.xml" =
      (extractLinksFromXml
          "<?xml version=\"1.0\"?>\n<urlset><url><loc>https://example.com/post-1</loc></url></urlset>").foldl
        (fun s l => visitM ⟨fun _ _ => Resp.ok "application/xml"
            "<?xml version=\"1.0\"?>\n<urlset><url><loc>https://example.com/post-1</loc></url></urlset>" [],
          fun _ b => b⟩
          ⟨".skillscache", true, none, []⟩ "" 0 ⟨"https://example.com/sitemap.xml", true, "include", false⟩ s l)
        ⟨[stripHash "https://example.com/sitemap.xml"], [] ++ [stripHash "https://example.com/sitemap.xml"], []⟩ :=
  ⟨by decide,
    (feed_mining ⟨fun _ _ => Resp.ok "application/xml"
          "<?xml version=\"1.0\"?>\n<urlset><url><loc>https://example.com/post-1</loc></url></urlset>" [],
        fun _ b => b⟩
      ⟨".skillscache", true, none, []⟩ "" 0 ⟨"https://example.com/sitemap.xml", true, "include", false⟩
      ⟨[], [], []⟩ "https://example.com/sitemap.xml" "application/xml"
      "<?xml version=\"1.0\"?>\n<urlset><url><loc>https://example.com/post-1</loc></url></urlset>" []
      (by decide) (by decide) rfl (by decide)).1⟩

/-- C10 witness: the no-fetch clause applied at a concrete ignore
configuration and URL. -/
theorem shouldIgnore_raw_string_check_witness :
    shouldIgnore
        (Config.rules ⟨".skillscache", false, none,
          [⟨"https://example.com/posts", false, "ignore", false⟩]⟩)
        (stripHash "https://example.com/posts-extra") = true
    ∧ visitM ⟨fun _ _ => Resp.err, fun _ b => b⟩
        ⟨".skillscache", false, none, [⟨"https://example.com/posts", false, "ignore", false⟩]⟩
        "" 3 ⟨"https://example.com/posts", true, "include", false⟩
        ⟨[], [], []⟩ "https://example.com/posts-extra" = ⟨[], [], []⟩ :=
  ⟨by decide,
    (shouldIgnore_raw_string_check).2.2.2 ⟨fun _ _ => Resp.err, fun _ b => b⟩
      ⟨".skillscache", false, none, [⟨"https://example.com/posts", false, "ignore", false⟩]⟩
      "" 3 ⟨"https://example.com/posts", true, "include", false⟩
      ⟨[], [], []⟩ "https://example.com/posts-extra" (by decide)⟩

end AgentSkills
